import Mathlib

/-!
Verification of the zedex extension mirror: a shallow embedding of the
version-comparison, cache-resolution, downloader, catalog-builder and
update-check logic, together with theorems about the claimed behaviour.

File I/O is modelled by an explicit `FS` value (a map from path components to
optional file contents plus an existence predicate), HTTP upstream calls by
explicit function/value parameters, and `std::collections::HashMap` by an
association list with unique keys.
-/

namespace Zedex

open Batteries (TransCmp OrientedCmp)

/-! ## Generic comparator infrastructure

`cmpList` is element-wise lexicographic comparison (the comparison Rust uses
for slices/iterators of identifiers).  `maxByCmp` models Rust's
`Iterator::max_by`, which keeps the last of equally-maximal elements. -/

def cmpList (c : α → α → Ordering) : List α → List α → Ordering
  | [], [] => .eq
  | [], _ :: _ => .lt
  | _ :: _, [] => .gt
  | a :: as, b :: bs => (c a b).then (cmpList c as bs)

theorem cmpList_swap {c : α → α → Ordering} [hc : OrientedCmp c] :
    ∀ as bs, (cmpList c as bs).swap = cmpList c bs as
  | [], [] => rfl
  | [], _ :: _ => rfl
  | _ :: _, [] => rfl
  | a :: as, b :: bs => by
    simp only [cmpList, Ordering.swap_then, hc.symm a b, cmpList_swap as bs]

instance cmpList_oriented {c : α → α → Ordering} [OrientedCmp c] :
    OrientedCmp (cmpList c) where
  symm as bs := cmpList_swap as bs

theorem cmpList_le_trans {c : α → α → Ordering} [hc : TransCmp c] :
    ∀ as bs cs, cmpList c as bs ≠ .gt → cmpList c bs cs ≠ .gt →
      cmpList c as cs ≠ .gt := by
  intro as
  induction as with
  | nil => intro bs cs _ _; cases cs <;> simp [cmpList]
  | cons a as ih =>
    intro bs cs h1 h2
    cases bs with
    | nil => exact absurd (by cases as <;> rfl) h1
    | cons b bs =>
      cases cs with
      | nil => exact absurd (by cases bs <;> rfl) h2
      | cons c' cs =>
        simp only [cmpList, ne_eq, Ordering.then_eq_gt, not_or, not_and] at h1 h2 ⊢
        obtain ⟨hab, hab2⟩ := h1
        obtain ⟨hbc, hbc2⟩ := h2
        refine ⟨TransCmp.le_trans hab hbc, fun hac => ?_⟩
        match e1 : c a b with
        | .gt => exact absurd e1 hab
        | .eq =>
          exact ih bs cs (hab2 e1)
            (hbc2 (by rw [← TransCmp.cmp_congr_left e1, hac]))
        | .lt =>
          have hca : c c' a = .eq := OrientedCmp.cmp_eq_eq_symm.mp hac
          have hb : c b c' = c b a := TransCmp.cmp_congr_right hca
          have hba : c b a = .gt := OrientedCmp.cmp_eq_gt.mpr e1
          exact absurd (hb.trans hba) hbc

instance cmpList_trans {c : α → α → Ordering} [TransCmp c] :
    TransCmp (cmpList c) where
  le_trans := cmpList_le_trans _ _ _

theorem transCmp_ext {f g : α → α → Ordering} (h : ∀ a b, f a b = g a b)
    (hg : TransCmp g) : TransCmp f := by
  have hfg : f = g := funext fun a => funext fun b => h a b
  rw [hfg]; exact hg

theorem transCmp_on (f : α → β) {c : β → β → Ordering} (hc : TransCmp c) :
    TransCmp (fun a b => c (f a) (f b)) :=
  { symm := fun a b => hc.symm (f a) (f b)
    le_trans := fun h1 h2 => hc.le_trans h1 h2 }

/-- One step of Rust's `Iterator::max_by` fold: the new element wins unless it
compares strictly less than the current maximum. -/
def maxStep (c : α → α → Ordering) (acc : Option α) (x : α) : Option α :=
  match acc with
  | none => some x
  | some m => if c x m = .lt then some m else some x

/-- Rust's `Iterator::max_by`. -/
def maxByCmp (c : α → α → Ordering) (l : List α) : Option α :=
  l.foldl (maxStep c) none

theorem maxByCmp_go {c : α → α → Ordering} [TransCmp c] :
    ∀ (l : List α) (m : α),
      ∃ r, l.foldl (maxStep c) (some m) = some r ∧ (r = m ∨ r ∈ l) ∧
        c m r ≠ .gt ∧ ∀ x ∈ l, c x r ≠ .gt := by
  intro l
  induction l with
  | nil =>
    intro m
    exact ⟨m, rfl, .inl rfl, by simp [OrientedCmp.cmp_refl], by simp⟩
  | cons x t ih =>
    intro m
    by_cases hx : c x m = .lt
    · obtain ⟨r, hr, hmem, hmr, hall⟩ := ih m
      refine ⟨r, by simpa [maxStep, hx] using hr, ?_, hmr, ?_⟩
      · rcases hmem with h | h
        · exact .inl h
        · exact .inr (List.mem_cons_of_mem _ h)
      · intro y hy
        rcases List.mem_cons.mp hy with rfl | hy
        · have hlt := TransCmp.lt_le_trans hx hmr
          simp [hlt]
        · exact hall y hy
    · obtain ⟨r, hr, hmem, hxr, hall⟩ := ih x
      refine ⟨r, by simpa [maxStep, hx] using hr, ?_, ?_, ?_⟩
      · rcases hmem with rfl | h
        · exact .inr (List.mem_cons_self _ _)
        · exact .inr (List.mem_cons_of_mem _ h)
      · have hmx : c m x ≠ .gt := fun hgt => hx (OrientedCmp.cmp_eq_gt.mp hgt)
        exact TransCmp.le_trans hmx hxr
      · intro y hy
        rcases List.mem_cons.mp hy with rfl | hy
        · exact hxr
        · exact hall y hy

theorem maxByCmp_spec {c : α → α → Ordering} [TransCmp c] {l : List α} {r : α}
    (h : maxByCmp c l = some r) : r ∈ l ∧ ∀ x ∈ l, c x r ≠ .gt := by
  cases l with
  | nil => cases h
  | cons x t =>
    obtain ⟨r', hr', hmem, hmr, hall⟩ := maxByCmp_go (c := c) t x
    have hfold : maxByCmp c (x :: t) = t.foldl (maxStep c) (some x) := rfl
    rw [hfold, hr'] at h
    cases h
    refine ⟨?_, ?_⟩
    · rcases hmem with rfl | hmem
      · exact List.mem_cons_self _ _
      · exact List.mem_cons_of_mem _ hmem
    · intro y hy
      rcases List.mem_cons.mp hy with rfl | hy
      · exact hmr
      · exact hall y hy

/-! ## Association-list model of `HashMap<String, _>`

Keys are unique in a `HashMap`; `insertKV` replaces in place or appends, and
`lookupKV` returns the first (hence only) binding. -/

def insertKV (m : List (String × β)) (k : String) (v : β) : List (String × β) :=
  match m with
  | [] => [(k, v)]
  | (k', v') :: t => if k' = k then (k, v) :: t else (k', v') :: insertKV t k v

def lookupKV (m : List (String × β)) (k : String) : Option β :=
  match m with
  | [] => none
  | (k', v') :: t => if k' = k then some v' else lookupKV t k

theorem lookupKV_insertKV (m : List (String × β)) (k : String) (v : β)
    (k' : String) :
    lookupKV (insertKV m k v) k' = if k = k' then some v else lookupKV m k' := by
  induction m with
  | nil => simp [insertKV, lookupKV]
  | cons p t ih =>
    obtain ⟨k0, v0⟩ := p
    by_cases h0 : k0 = k
    · subst h0
      by_cases h1 : k0 = k'
      · subst h1; simp [insertKV, lookupKV]
      · simp [insertKV, lookupKV, h1]
    · by_cases h1 : k0 = k'
      · subst h1
        have hkk : ¬ k = k0 := fun h => h0 h.symm
        simp [insertKV, lookupKV, h0, hkk]
      · simp [insertKV, lookupKV, h0, h1, ih]

theorem mem_keys_insertKV {m : List (String × β)} {k x : String} {v : β}
    (h : x ∈ (insertKV m k v).map (·.1)) : x = k ∨ x ∈ m.map (·.1) := by
  induction m with
  | nil => simpa [insertKV] using h
  | cons p t ih =>
    obtain ⟨k0, v0⟩ := p
    by_cases h0 : k0 = k
    · subst h0
      rcases (by simpa [insertKV] using h : x = k0 ∨ x ∈ t.map (·.1)) with h1 | h1
      · exact .inl h1
      · exact .inr (by simp [h1])
    · rcases (by simpa [insertKV, h0] using h : x = k0 ∨ x ∈ (insertKV t k v).map (·.1)) with h1 | h1
      · exact .inr (by simp [h1])
      · rcases ih h1 with h2 | h2
        · exact .inl h2
        · exact .inr (by simp [h2, or_comm])

theorem nodup_keys_insertKV {m : List (String × β)} (k : String) (v : β)
    (h : (m.map (·.1)).Nodup) : ((insertKV m k v).map (·.1)).Nodup := by
  induction m with
  | nil => simp [insertKV]
  | cons p t ih =>
    obtain ⟨k0, v0⟩ := p
    simp only [List.map_cons, List.nodup_cons] at h
    obtain ⟨hk0, ht⟩ := h
    by_cases h0 : k0 = k
    · subst h0
      have heq : insertKV ((k0, v0) :: t) k0 v = (k0, v) :: t := by simp [insertKV]
      rw [heq, List.map_cons, List.nodup_cons]
      exact ⟨hk0, ht⟩
    · have := ih ht
      simp only [insertKV, h0, if_false, List.map_cons, List.nodup_cons]
      refine ⟨fun hmem => ?_, this⟩
      rcases mem_keys_insertKV hmem with rfl | hmem
      · exact h0 rfl
      · exact hk0 hmem

/-! ## Data model (`src/zed/extension.rs`) -/

/-- Struct `Extension` from `extension.rs`.  `i32` fields become `Int` (only compared,
never overflowed); `Vec<String>` becomes `List String`. -/
structure Extension where
  id : String
  name : String
  version : String
  description : String
  authors : List String
  repository : Option String
  schema_version : Int
  wasm_api_version : Option String
  published_at : Option String
  download_count : Int
  provides : List String
deriving DecidableEq

/-- Struct `ExtensionVersionTracker`: a `HashMap<String, String>` modelled as an
association list with unique keys. -/
structure ExtensionVersionTracker where
  extensions : List (String × String)
deriving DecidableEq

def ExtensionVersionTracker.new : ExtensionVersionTracker := ⟨[]⟩

/-- Method `update_extension`: insert the extension's id and version. -/
def ExtensionVersionTracker.update_extension (t : ExtensionVersionTracker)
    (extension : Extension) : ExtensionVersionTracker :=
  ⟨insertKV t.extensions extension.id extension.version⟩

/-- Method `merge`: insert every binding of `other` into `self`. -/
def ExtensionVersionTracker.merge (t other : ExtensionVersionTracker) :
    ExtensionVersionTracker :=
  ⟨other.extensions.foldl (fun acc p => insertKV acc p.1 p.2) t.extensions⟩

/-- Method `has_newer_version`: tracked id present → strings differ; absent → true. -/
def ExtensionVersionTracker.has_newer_version (t : ExtensionVersionTracker)
    (extension : Extension) : Bool :=
  match lookupKV t.extensions extension.id with
  | some tracked_version => if tracked_version = extension.version then false else true
  | none => true

/-- Method `provides_capability`: whether any provided tag equals `capability`. -/
def Extension.provides_capability (ext : Extension) (capability : String) : Bool :=
  ext.provides.any (fun p => p = capability)

/-! ## Rust integer parsing

`u32::from_str` / `i32::from_str`: an optional sign (`+` for unsigned; `+`/`-`
for signed), then one or more ASCII digits, rejecting overflow.  Leading zeros
are accepted. -/

def parseDigits (cs : List Char) : Option Nat :=
  if cs.isEmpty then none
  else if cs.all (·.isDigit) then
    some (cs.foldl (fun n c => n * 10 + (c.toNat - 48)) 0)
  else none

def parseU32 (s : String) : Option Nat :=
  let cs := match s.data with
    | '+' :: rest => rest
    | cs => cs
  match parseDigits cs with
  | some n => if n < 4294967296 then some n else none
  | none => none

def parseI32 (s : String) : Option Int :=
  let signed : Int × List Char := match s.data with
    | '+' :: rest => (1, rest)
    | '-' :: rest => (-1, rest)
    | cs => (1, cs)
  match parseDigits signed.2 with
  | some n =>
    let v : Int := signed.1 * n
    if -2147483648 ≤ v ∧ v ≤ 2147483647 then some v else none
  | none => none

/-! ## Release `Version` (`src/zed/version.rs`)

Rust `String` comparison is byte-wise lexicographic on UTF-8, which coincides
with `Char`-wise lexicographic comparison by code point; Lean's `compare` on
`String` implements exactly that order. -/

structure Version where
  version : String
  url : String
  api_url : Option String
deriving DecidableEq

/-- Translation of `u32::cmp`. -/
def cmpNat (a b : Nat) : Ordering :=
  if a < b then .lt else if b < a then .gt else .eq

/-- Rust `char`/byte comparison by code point. -/
def cmpChar (a b : Char) : Ordering := cmpNat a.toNat b.toNat

/-- Rust `String::cmp`: byte-wise lexicographic on UTF-8, which coincides with
`Char`-wise lexicographic comparison by code point. -/
def strCmp (a b : String) : Ordering := cmpList cmpChar a.data b.data

def splitOnChar (sep : Char) : List Char → List (List Char)
  | [] => [[]]
  | c :: rest =>
    if c = sep then [] :: splitOnChar sep rest
    else
      match splitOnChar sep rest with
      | h :: t => (c :: h) :: t
      | [] => [[c]]

/-- Rust `str::split(sep)` for a single-`char` separator. -/
def splitStr (sep : Char) (s : String) : List String :=
  (splitOnChar sep s.data).map String.mk

/-- Method `Version::parse_semver`: split on `'.'`; fewer than three components fail;
the first three components are parsed as `u32`. -/
def Version.parse_semver (self : Version) : Option (Nat × Nat × Nat) :=
  let parts := splitStr '.' self.version
  if parts.length < 3 then none
  else
    match parseU32 (parts.getD 0 ""), parseU32 (parts.getD 1 ""),
        parseU32 (parts.getD 2 "") with
    | some major, some minor, some patch => some (major, minor, patch)
    | _, _, _ => none

/-- Method `Version::compare`: numeric triple comparison when both sides parse,
otherwise lexicographic comparison of the raw strings. -/
def Version.compare (self other : Version) : Ordering :=
  match self.parse_semver, other.parse_semver with
  | some (self_major, self_minor, self_patch),
    some (other_major, other_minor, other_patch) =>
    match cmpNat self_major other_major with
    | .eq =>
      match cmpNat self_minor other_minor with
      | .eq => cmpNat self_patch other_patch
      | ordering => ordering
    | ordering => ordering
  | _, _ => strCmp self.version other.version

/-! ## Model of the `semver` crate (used by the download handler)

`semver::Version::parse` accepts `major.minor.patch` (ASCII digits, no leading
zeros, `u64` range), an optional `-` pre-release and an optional `+` build
suffix, each a non-empty dot-separated list of non-empty ASCII
alphanumeric/hyphen identifiers (numeric pre-release identifiers reject
leading zeros).  Its `Ord` compares major/minor/patch numerically, then
pre-release (absence ranks highest; numeric identifiers order below and among
themselves numerically), then build metadata as a total-order tiebreak. -/

theorem cmpNat_eq_compare (a b : Nat) : cmpNat a b = compare a b := by
  unfold cmpNat
  rcases Nat.lt_trichotomy a b with h | h | h
  · simp [h, Nat.compare_eq_lt.mpr h]
  · subst h; simp [Nat.lt_irrefl, Nat.compare_eq_eq.mpr rfl]
  · simp [Nat.lt_asymm h, h, Nat.compare_eq_gt.mpr h]

instance cmpNat_trans : TransCmp cmpNat :=
  transCmp_ext cmpNat_eq_compare inferInstance

instance cmpChar_trans : TransCmp cmpChar :=
  transCmp_ext (g := fun a b : Char => cmpNat a.toNat b.toNat) (fun _ _ => rfl)
    (transCmp_on Char.toNat inferInstance)

instance strCmp_trans : TransCmp strCmp :=
  transCmp_ext (g := fun a b : String => cmpList cmpChar a.data b.data)
    (fun _ _ => rfl) (transCmp_on String.data inferInstance)

def identIsNumeric (s : String) : Bool :=
  !s.data.isEmpty && s.data.all (·.isDigit)

def identNatVal (s : String) : Nat :=
  s.data.foldl (fun n c => n * 10 + (c.toNat - 48)) 0

/-- Identifier comparison of the `semver` crate: numeric identifiers rank
below alphanumeric ones and compare numerically (string tiebreak only matters
for build metadata, where leading zeros are allowed); alphanumeric identifiers
compare as ASCII strings. -/
def cmpIdent (a b : String) : Ordering :=
  match identIsNumeric a, identIsNumeric b with
  | true, true => (cmpNat (identNatVal a) (identNatVal b)).then (strCmp a b)
  | true, false => .lt
  | false, true => .gt
  | false, false => strCmp a b

def identFlag (s : String) : Nat := if identIsNumeric s then 0 else 1

def identKeyVal (s : String) : Nat := if identIsNumeric s then identNatVal s else 0

theorem cmpIdent_eq_key (a b : String) :
    cmpIdent a b = compareLex (fun x y => cmpNat (identFlag x) (identFlag y))
      (compareLex (fun x y => cmpNat (identKeyVal x) (identKeyVal y)) strCmp) a b := by
  unfold cmpIdent compareLex identFlag identKeyVal
  cases ha : identIsNumeric a <;> cases hb : identIsNumeric b <;>
    simp [ha, hb, cmpNat, Ordering.then]

instance cmpIdent_trans : TransCmp cmpIdent := by
  haveI h1 : TransCmp (fun x y : String => cmpNat (identKeyVal x) (identKeyVal y)) :=
    transCmp_on identKeyVal inferInstance
  haveI h2 : TransCmp (fun x y : String => cmpNat (identFlag x) (identFlag y)) :=
    transCmp_on identFlag inferInstance
  exact transCmp_ext cmpIdent_eq_key inferInstance

/-- Pre-release comparison: an empty pre-release (a release version) ranks
above any non-empty one; otherwise identifier lists compare lexicographically
with the shorter prefix ranking lower. -/
def cmpPre (a b : List String) : Ordering :=
  match a, b with
  | [], [] => .eq
  | [], _ :: _ => .gt
  | _ :: _, [] => .lt
  | a, b => cmpList cmpIdent a b

def preFlag (l : List String) : Nat := if l.isEmpty then 1 else 0

theorem cmpPre_eq_key (a b : List String) :
    cmpPre a b = compareLex (fun x y => cmpNat (preFlag x) (preFlag y))
      (cmpList cmpIdent) a b := by
  cases a <;> cases b <;>
    simp [cmpPre, compareLex, preFlag, cmpNat, cmpList, Ordering.then]

instance cmpPre_trans : TransCmp cmpPre := by
  haveI h1 : TransCmp (fun x y : List String => cmpNat (preFlag x) (preFlag y)) :=
    transCmp_on preFlag inferInstance
  exact transCmp_ext cmpPre_eq_key inferInstance

/-- Build metadata comparison: the crate compares the raw suffix strings as
dot-separated identifier lists, the empty suffix behaving as the single empty
identifier. -/
def buildArg (l : List String) : List String := if l.isEmpty then [""] else l

def cmpBuild (a b : List String) : Ordering :=
  cmpList cmpIdent (buildArg a) (buildArg b)

instance cmpBuild_trans : TransCmp cmpBuild :=
  transCmp_ext (g := fun x y => cmpList cmpIdent (buildArg x) (buildArg y))
    (fun _ _ => rfl) (transCmp_on buildArg inferInstance)

structure SemVer where
  major : Nat
  minor : Nat
  patch : Nat
  pre : List String
  build : List String
deriving DecidableEq

/-- Comparison `Ord for semver::Version`. -/
def semverCmp (a b : SemVer) : Ordering :=
  (cmpNat a.major b.major).then ((cmpNat a.minor b.minor).then
    ((cmpNat a.patch b.patch).then ((cmpPre a.pre b.pre).then
      (cmpBuild a.build b.build))))

instance semverCmp_trans : TransCmp semverCmp := by
  haveI h1 : TransCmp (fun a b : SemVer => cmpNat a.major b.major) :=
    transCmp_on SemVer.major inferInstance
  haveI h2 : TransCmp (fun a b : SemVer => cmpNat a.minor b.minor) :=
    transCmp_on SemVer.minor inferInstance
  haveI h3 : TransCmp (fun a b : SemVer => cmpNat a.patch b.patch) :=
    transCmp_on SemVer.patch inferInstance
  haveI h4 : TransCmp (fun a b : SemVer => cmpPre a.pre b.pre) :=
    transCmp_on SemVer.pre inferInstance
  haveI h5 : TransCmp (fun a b : SemVer => cmpBuild a.build b.build) :=
    transCmp_on SemVer.build inferInstance
  exact transCmp_ext
    (g := compareLex (fun a b : SemVer => cmpNat a.major b.major)
      (compareLex (fun a b : SemVer => cmpNat a.minor b.minor)
        (compareLex (fun a b : SemVer => cmpNat a.patch b.patch)
          (compareLex (fun a b : SemVer => cmpPre a.pre b.pre)
            (fun a b : SemVer => cmpBuild a.build b.build)))))
    (fun _ _ => rfl) inferInstance

/-- Split at the first occurrence of `sep`, returning the prefix and, when the
separator occurs, the remainder. -/
def splitFirst (sep : Char) : List Char → List Char × Option (List Char)
  | [] => ([], none)
  | c :: rest =>
    if c = sep then ([], some rest)
    else
      let r := splitFirst sep rest
      (c :: r.1, r.2)

/-- A `major`/`minor`/`patch` component: non-empty ASCII digits, no leading
zero, within `u64`. -/
def numericCore (cs : List Char) : Option Nat :=
  if cs.isEmpty then none
  else if !cs.all (·.isDigit) then none
  else if 1 < cs.length ∧ cs.headD ' ' = '0' then none
  else
    let n := cs.foldl (fun n c => n * 10 + (c.toNat - 48)) 0
    if n < 18446744073709551616 then some n else none

def validPreIdent (s : String) : Bool :=
  !s.data.isEmpty && s.data.all (fun c => c.isAlphanum || c = '-') &&
    (!(s.data.all (·.isDigit)) || s.data.length = 1 || s.data.headD ' ' ≠ '0')

def validBuildIdent (s : String) : Bool :=
  !s.data.isEmpty && s.data.all (fun c => c.isAlphanum || c = '-')

/-- Parser `semver::Version::parse`. -/
def semverParse (s : String) : Option SemVer :=
  let bsplit := splitFirst '+' s.data
  let psplit := splitFirst '-' bsplit.1
  match splitOnChar '.' psplit.1 with
  | [mj, mn, pt] =>
    match numericCore mj, numericCore mn, numericCore pt with
    | some major, some minor, some patch =>
      let pre : List String := match psplit.2 with
        | none => []
        | some cs => (splitOnChar '.' cs).map String.mk
      let build : List String := match bsplit.2 with
        | none => []
        | some cs => (splitOnChar '.' cs).map String.mk
      if pre.all validPreIdent && build.all validBuildIdent then
        some ⟨major, minor, patch, pre, build⟩
      else none
    | _, _, _ => none
  | _ => none

/-! ## Extension filtering (`extensions_utils::filter_extensions` and
`filter_extensions_with_params`) -/

/-- Rust `&str` comparison `a < b` (byte-wise lexicographic). -/
def strLt (a b : String) : Bool :=
  match strCmp a b with
  | .lt => true
  | _ => false

/-- Comparison `a ≤ b` in the same order. -/
def strLe (a b : String) : Bool :=
  match strCmp a b with
  | .gt => false
  | _ => true

def listIsInfix (n : List Char) : List Char → Bool
  | [] => n.isEmpty
  | c :: t => n.isPrefixOf (c :: t) || listIsInfix n t

/-- Rust `str::contains` with a string pattern. -/
def containsSubstr (hay needle : String) : Bool :=
  listIsInfix needle.data hay.data

/-- Rust `str::to_lowercase`, modelled as per-`Char` lowercasing (the
case-mapping used by the repo's ASCII ids/names). -/
def toLowerStr (s : String) : String :=
  String.mk (s.data.map Char.toLower)

/-- Function `extensions_utils::filter_extensions`: keep an extension unless a present
`max_schema_version` is exceeded, a non-empty search text misses name, id and
description (case-insensitively), or a non-empty required capability is not
provided. -/
def filter_extensions (extensions : List Extension) (filter : Option String)
    (max_schema_version : Option Int) (provides : Option String) :
    List Extension :=
  extensions.filter fun ext =>
    (match max_schema_version with
     | some max_version => !(max_version < ext.schema_version)
     | none => true) &&
    (match filter with
     | some search_text =>
       search_text.data.isEmpty ||
         containsSubstr (toLowerStr ext.name) (toLowerStr search_text) ||
         containsSubstr (toLowerStr ext.id) (toLowerStr search_text) ||
         containsSubstr (toLowerStr ext.description) (toLowerStr search_text)
     | none => true) &&
    (match provides with
     | some capability =>
       capability.data.isEmpty || ext.provides_capability capability
     | none => true)

/-- The wasm-bound closure inside `filter_extensions_with_params`: extensions
without a `wasm_api_version` pass; otherwise return `false` when the version
string is `<` a present minimum or `>` a present maximum (`&str` comparison,
byte-wise lexicographic). -/
def wasmCodePred (min_wasm_api_version max_wasm_api_version : Option String)
    (ext : Extension) : Bool :=
  if ext.wasm_api_version.isNone then true
  else
    let ext_version := ext.wasm_api_version.getD ""
    (match min_wasm_api_version with
     | some min_version => !strLt ext_version min_version
     | none => true) &&
    (match max_wasm_api_version with
     | some max_version => !strLt max_version ext_version
     | none => true)

/-- Function `filter_extensions_with_params` from `handlers/extensions.rs`: the shared
filter of the catalog and update-check endpoints.  Stages: the standard
filter, then `min_schema_version`, then the id set (skipped when the given
slice is empty), then — only when at least one wasm bound is present — the
wasm-api-version bounds, which extensions without a `wasm_api_version` always
pass. -/
def filter_extensions_with_params (extensions : List Extension)
    (filter : Option String) (min_schema_version max_schema_version : Option Int)
    (min_wasm_api_version max_wasm_api_version : Option String)
    (provides : Option String) (extension_ids : Option (List String)) :
    List Extension :=
  let filtered_by_standard :=
    filter_extensions extensions filter max_schema_version provides
  let filtered_by_min_schema :=
    match min_schema_version with
    | some min_version =>
      filtered_by_standard.filter fun ext => min_version ≤ ext.schema_version
    | none => filtered_by_standard
  let filtered_by_ids :=
    match extension_ids with
    | some ids =>
      if !ids.isEmpty then
        filtered_by_min_schema.filter fun ext => ids.contains ext.id
      else filtered_by_min_schema
    | none => filtered_by_min_schema
  if min_wasm_api_version.isSome || max_wasm_api_version.isSome then
    filtered_by_ids.filter
      (wasmCodePred min_wasm_api_version max_wasm_api_version)
  else filtered_by_ids

/-! ## Mirror-server handlers (`src/zed/server/handlers/extensions.rs`)

Paths are lists of components relative to `extensions_dir`.  `FS.pathExists`
models `Path::exists`, `FS.read` models `fs::read`/`read_to_string` (`none`
covers both a missing file and a read error); the two are independent fields
because the code checks existence and reads at different moments.  Upstream
HTTP responses (for proxy mode) are explicit values: `none` models a
transport error, `body = none` a failure to read the response body. -/

structure FS where
  pathExists : List String → Bool
  read : List String → Option String

structure UpstreamResp where
  status : Nat
  body : Option String
deriving DecidableEq

inductive Response where
  | ok (contentType : String) (body : String)
  | okJson (data : List Extension)
  | notFound (msg : String)
  | internalError (msg : String)
  | raw (status : Nat) (body : String)
  | proxyUpdates
deriving DecidableEq

/-- Function `proxy_download_request`: on success, rebuild the upstream response from
its status, headers and body; on transport or body failure, a 500. -/
def proxy_download_request (upstream : Option UpstreamResp) : Response :=
  match upstream with
  | some resp =>
    match resp.body with
    | some bytes => .raw resp.status bytes
    | none => .internalError "Proxy error"
  | none => .internalError "Proxy error"

/-- Function `proxy_download_version_request`: same shape as `proxy_download_request`. -/
def proxy_download_version_request (upstream : Option UpstreamResp) : Response :=
  match upstream with
  | some resp =>
    match resp.body with
    | some bytes => .raw resp.status bytes
    | none => .internalError "Proxy error"
  | none => .internalError "Proxy error"

/-- The candidates considered by the best-available tier: versions listed in
`versions.json` whose `<id>-<version>.tgz` exists on disk and whose version
string parses as a semantic version (unparsable ones are skipped with a
warning). -/
def bestCandidates (fs : FS) (id : String) (versions : List Extension) :
    List (SemVer × String × List String) :=
  versions.filterMap fun ext =>
    let version := ext.version
    let archive_path := [id, id ++ "-" ++ version ++ ".tgz"]
    if fs.pathExists archive_path then
      (semverParse version).map fun v => (v, version, archive_path)
    else none

/-- Comparator used by `max_by` over the candidates (`v1.cmp(v2)` on the
parsed versions). -/
def candCmp (a b : SemVer × String × List String) : Ordering :=
  semverCmp a.1 b.1

instance candCmp_trans : TransCmp candCmp :=
  transCmp_ext (g := fun a b : SemVer × String × List String => semverCmp a.1 b.1)
    (fun _ _ => rfl) (transCmp_on _ inferInstance)

/-- The best-available tier of `download_extension` (lines 166–218): `none`
means "fall through to the legacy tier". -/
def bestAvailableTier (fs : FS) (parseWrapped : String → Option (List Extension))
    (id : String) : Option Response :=
  if fs.pathExists [id] then
    if fs.pathExists [id, "versions.json"] then
      match fs.read [id, "versions.json"] with
      | some content =>
        match parseWrapped content with
        | some versions =>
          match maxByCmp candCmp (bestCandidates fs id versions) with
          | some best =>
            match fs.read best.2.2 with
            | some bytes => some (.ok "application/gzip" bytes)
            | none => none
          | none => none
        | none => none
      | none => none
    else none
  else none

/-- Handler for `GET /extensions/{id}/download`.  `parseWrapped` is
`serde_json::from_str::<WrappedExtensions>` restricted to the file contents
it is fed. -/
def download_extension (fs : FS)
    (parseWrapped : String → Option (List Extension)) (proxy_mode : Bool)
    (upstream : Option UpstreamResp) (id : String) : Response :=
  match fs.read [id, id ++ ".tgz"] with
  | some bytes => .ok "application/gzip" bytes
  | none =>
    match bestAvailableTier fs parseWrapped id with
    | some resp => resp
    | none =>
      match fs.read [id ++ ".tar.gz"] with
      | some bytes => .ok "application/gzip" bytes
      | none =>
        if proxy_mode then proxy_download_request upstream
        else .notFound ("Extension archive not found for id: " ++ id)

/-- Handler for `GET /extensions/{id}/{version}/download`. -/
def download_extension_with_version (fs : FS) (proxy_mode : Bool)
    (upstream : Option UpstreamResp) (id version : String) : Response :=
  match fs.read [id, id ++ "-" ++ version ++ ".tgz"] with
  | some bytes => .ok "application/gzip" bytes
  | none =>
    if proxy_mode then proxy_download_version_request upstream
    else .notFound ("Extension version archive not found: " ++ version)

/-- Handler for `GET /extensions/updates`.  The query string is a map from
parameter name to value. -/
def check_extension_updates (fs : FS)
    (parseWrapped : String → Option (List Extension)) (proxy_mode : Bool)
    (query : List (String × String)) : Response :=
  let min_schema_version := (lookupKV query "min_schema_version").bind parseI32
  let max_schema_version := (lookupKV query "max_schema_version").bind parseI32
  let min_wasm_api_version := lookupKV query "min_wasm_api_version"
  let max_wasm_api_version := lookupKV query "max_wasm_api_version"
  let ids_param := (lookupKV query "ids").getD ""
  let extension_ids : List String :=
    if !ids_param.data.isEmpty then splitStr ',' ids_param else []
  if ids_param.data.isEmpty then .okJson []
  else
    match fs.read ["extensions.json"] with
    | some content =>
      match parseWrapped content with
      | some extensions =>
        .okJson (filter_extensions_with_params extensions none
          min_schema_version max_schema_version
          min_wasm_api_version max_wasm_api_version none
          (if extension_ids.isEmpty then none else some extension_ids))
      | none => .internalError "Error parsing extensions file"
    | none =>
      if proxy_mode then .proxyUpdates
      else .notFound "Extensions file not found"

/-! ## Acquisition orchestrator (`downloader.rs::download_extension`)

Effects are made observable: `attempts` records every archive download
initiated, `writes` every file written.  `download id version = none` models a
failed download (logged and skipped in the code); `writeOk` models whether
`fs::write` to a path succeeds; `mkdirOk` whether `create_dir_all` succeeds.
The rate-limit sleep is timing-only and not modelled. -/

structure DlResult where
  attempts : List (String × String)
  writes : List (List String × String)
  tracker : ExtensionVersionTracker
deriving DecidableEq

/-- Per-version step of the `all_versions` loop. -/
def dlVersionStep (fs : FS) (download : String → String → Option String)
    (writeOk : List String → Bool) (id : String) (acc : DlResult)
    (version : Extension) : DlResult :=
  let file_path := [id, id ++ "-" ++ version.version ++ ".tgz"]
  if fs.pathExists file_path then
    { acc with tracker := acc.tracker.update_extension version }
  else
    let acc := { acc with attempts := acc.attempts ++ [(id, version.version)] }
    match download id version.version with
    | some bytes =>
      if writeOk file_path then
        { acc with writes := acc.writes ++ [(file_path, bytes)],
                   tracker := acc.tracker.update_extension version }
      else acc
    | none => acc

/-- Function `downloader.rs::download_extension`: one extension's work.  In
`all_versions` mode the version-list fetch and the `versions.json` write
propagate errors (`?`); everything else is logged and swallowed, returning the
(possibly updated) tracker. -/
def dl_download_extension (fs : FS) (mkdirOk : Bool)
    (versionsResult : Except Unit (List Extension))
    (encode : List Extension → String)
    (download : String → String → Option String)
    (writeOk : List String → Bool) (all_versions : Bool) (extension : Extension)
    (version_tracker : ExtensionVersionTracker) : Except Unit DlResult :=
  let id := extension.id
  if !fs.pathExists [id] && !mkdirOk then
    .ok ⟨[], [], version_tracker⟩
  else if all_versions then
    match versionsResult with
    | .error e => .error e
    | .ok versions =>
      if !writeOk [id, "versions.json"] then .error ()
      else
        let init : DlResult :=
          ⟨[], [([id, "versions.json"], encode versions)], version_tracker⟩
        .ok (versions.foldl (dlVersionStep fs download writeOk id) init)
  else
    let file_path := [id, id ++ ".tgz"]
    if fs.pathExists file_path && !version_tracker.has_newer_version extension then
      .ok ⟨[], [], version_tracker⟩
    else
      match download id extension.version with
      | some bytes =>
        if writeOk file_path then
          .ok ⟨[(id, extension.version)], [(file_path, bytes)],
            version_tracker.update_extension extension⟩
        else .ok ⟨[(id, extension.version)], [], version_tracker⟩
      | none => .ok ⟨[(id, extension.version)], [], version_tracker⟩

/-! ## Catalog builder (`downloader.rs::download_extension_index`)

`fetch q` models `client.get_extensions_index(q)`; the returned pair is
(file writes performed, result).  The iteration order of the discovered
capability `HashSet` is arbitrary in Rust; first-seen order stands in for it
(the proved properties do not depend on the order). -/

def insertExts (m : List (String × Extension)) (exts : List Extension) :
    List (String × Extension) :=
  exts.foldl (fun m ext => insertKV m ext.id ext) m

/-- Fetch each query in turn, merging results id-keyed (later fetches
overwrite); the first failure aborts (`?`). -/
def mergeFetches (fetch : Option String → Except Unit (List Extension)) :
    List (Option String) → List (String × Extension) →
      Except Unit (List (String × Extension))
  | [], m => .ok m
  | q :: rest, m =>
    match fetch q with
    | .error e => .error e
    | .ok exts => mergeFetches fetch rest (insertExts m exts)

/-- Sort comparator: `b.download_count.cmp(&a.download_count)` — descending
download count (an element may precede another iff the comparator is not
`Greater`). -/
def indexLe (a b : Extension) : Bool := b.download_count ≤ a.download_count

/-- The fetch-and-merge stage of `download_extension_index`: no filters means
one unfiltered fetch, then one fetch per discovered capability; otherwise one
fetch per given filter. -/
def buildIndexMap (fetch : Option String → Except Unit (List Extension))
    (provides : List String) : Except Unit (List (String × Extension)) :=
  if provides.isEmpty then
    match fetch none with
    | .error e => .error e
    | .ok initial_exts =>
      let m := insertExts [] initial_exts
      let caps := (initial_exts.flatMap (·.provides)).dedup
      mergeFetches fetch (caps.map some) m
  else
    mergeFetches fetch (provides.map some) []

def download_extension_index
    (fetch : Option String → Except Unit (List Extension))
    (encode : List Extension → String) (provides : List String) :
    List (List String × String) × Except Unit (List Extension) :=
  match buildIndexMap fetch provides with
  | .error e => ([], .error e)
  | .ok m =>
    let extensions := (m.map (·.2)).mergeSort indexLe
    ([(["extensions.json"], encode extensions)], .ok extensions)

/-! ## Supporting lemmas -/

theorem lookupKV_eq_none {m : List (String × β)} {k : String}
    (h : k ∉ m.map (·.1)) : lookupKV m k = none := by
  induction m with
  | nil => rfl
  | cons p t ih =>
    obtain ⟨k0, v0⟩ := p
    simp only [List.map_cons, List.mem_cons, not_or] at h
    obtain ⟨h1, h2⟩ := h
    have hne : ¬ (k0 = k) := fun e => h1 e.symm
    simp [lookupKV, hne, ih h2]

theorem lookupKV_foldl_insert (l : List (String × String))
    (m : List (String × String)) (k : String) (h : (l.map (·.1)).Nodup) :
    lookupKV (l.foldl (fun acc p => insertKV acc p.1 p.2) m) k =
      match lookupKV l k with
      | some v => some v
      | none => lookupKV m k := by
  induction l generalizing m with
  | nil => simp [lookupKV]
  | cons p t ih =>
    obtain ⟨k0, v0⟩ := p
    simp only [List.map_cons, List.nodup_cons] at h
    obtain ⟨hk0, ht⟩ := h
    simp only [List.foldl_cons]
    rw [ih _ ht]
    by_cases hk : k0 = k
    · subst hk
      have hnone : lookupKV t k0 = none := lookupKV_eq_none hk0
      simp [lookupKV, hnone, lookupKV_insertKV]
    · have hk' : ¬ (k = k0) := fun e => hk e.symm
      cases hlt : lookupKV t k with
      | some v => simp [lookupKV, hk, hlt]
      | none => simp [lookupKV, hk, hlt, lookupKV_insertKV, hk']

theorem strLe_eq_not_strLt (a b : String) : strLe a b = !strLt b a := by
  have hsymm : (strCmp b a).swap = strCmp a b := strCmp_trans.toOrientedCmp.symm b a
  unfold strLe strLt
  rw [← hsymm]
  cases strCmp b a <;> rfl

/-! ## Sample data for the concrete-instance theorems -/

def mkExt (id version : String) (schema : Int) (wasm : Option String)
    (dc : Int) (provides : List String) : Extension :=
  { id := id, name := id, version := version, description := "",
    authors := [], repository := none, schema_version := schema,
    wasm_api_version := wasm, published_at := none, download_count := dc,
    provides := provides }

def extAcme12 : Extension := mkExt "acme" "1.2.0" 1 none 5 []

def extAcme110 : Extension := mkExt "acme" "1.10.0" 1 none 5 []

/-- A filesystem holding `acme/acme-1.2.0.tgz` and `acme/acme-1.10.0.tgz`
plus `acme/versions.json`, but no latest `acme/acme.tgz` and no legacy flat
file. -/
def acmeFs : FS where
  pathExists p :=
    p = ["acme"] ∨ p = ["acme", "versions.json"] ∨
      p = ["acme", "acme-1.2.0.tgz"] ∨ p = ["acme", "acme-1.10.0.tgz"]
  read p :=
    if p = ["acme", "versions.json"] then some "VERSIONS_JSON"
    else if p = ["acme", "acme-1.2.0.tgz"] then some "ARCHIVE_1_2_0"
    else if p = ["acme", "acme-1.10.0.tgz"] then some "ARCHIVE_1_10_0"
    else none

def acmeParse (content : String) : Option (List Extension) :=
  if content = "VERSIONS_JSON" then some [extAcme12, extAcme110] else none

/-! ## Claim theorems -/

/-- Claim C5: `VersionTracker.merge` is last-write-wins per key — after
`t1.merge(t2)` the value at `k` is `t2`'s when present, otherwise `t1`'s
prior value; keys in neither stay absent. -/
theorem c5_merge_last_write_wins (t1 t2 : ExtensionVersionTracker) (k : String)
    (h : (t2.extensions.map (·.1)).Nodup) :
    lookupKV (t1.merge t2).extensions k =
      match lookupKV t2.extensions k with
      | some v => some v
      | none => lookupKV t1.extensions k :=
  lookupKV_foldl_insert t2.extensions t1.extensions k h

/-- Claim C5 witness: merging `{a:1}` then `{a:2}` yields `{a:2}`, and the
reverse order yields `{a:1}`. -/
theorem c5_merge_last_write_wins_witness :
    lookupKV ((ExtensionVersionTracker.mk [("a", "1")]).merge ⟨[("a", "2")]⟩).extensions "a"
        = some "2" ∧
    lookupKV ((ExtensionVersionTracker.mk [("a", "2")]).merge ⟨[("a", "1")]⟩).extensions "a"
        = some "1" :=
  ⟨(c5_merge_last_write_wins ⟨[("a", "1")]⟩ ⟨[("a", "2")]⟩ "a" (by decide)).trans (by decide),
   (c5_merge_last_write_wins ⟨[("a", "2")]⟩ ⟨[("a", "1")]⟩ "a" (by decide)).trans (by decide)⟩

/-- Claim C3: the explicit-version handler consults exactly the one file
`<id>/<id>-<version>.tgz`: its response is unchanged under any change to the
rest of the filesystem, it serves that file when readable, and on a miss it
goes directly to the proxy (when `proxy_mode`) or a 404 — never touching
`<id>/<id>.tgz`, `versions.json` or the legacy flat file. -/
theorem c3_explicit_version_exact_file (fs fs' : FS) (proxy_mode : Bool)
    (upstream : Option UpstreamResp) (id version : String)
    (h : fs.read [id, id ++ "-" ++ version ++ ".tgz"] =
         fs'.read [id, id ++ "-" ++ version ++ ".tgz"]) :
    download_extension_with_version fs proxy_mode upstream id version =
      download_extension_with_version fs' proxy_mode upstream id version ∧
    (∀ bytes, fs.read [id, id ++ "-" ++ version ++ ".tgz"] = some bytes →
      download_extension_with_version fs proxy_mode upstream id version =
        .ok "application/gzip" bytes) ∧
    (fs.read [id, id ++ "-" ++ version ++ ".tgz"] = none →
      download_extension_with_version fs proxy_mode upstream id version =
        if proxy_mode then proxy_download_version_request upstream
        else .notFound ("Extension version archive not found: " ++ version)) := by
  refine ⟨?_, ?_, ?_⟩
  · unfold download_extension_with_version
    rw [h]
  · intro bytes hb
    unfold download_extension_with_version
    rw [hb]
  · intro hn
    unfold download_extension_with_version
    rw [hn]

/-- Claim C3 witness at a concrete filesystem pair agreeing only on the one
versioned path. -/
theorem c3_explicit_version_exact_file_witness :
    download_extension_with_version
        ⟨fun _ => false, fun p => if p = ["acme", "acme-1.2.0.tgz"] then some "B" else none⟩
        false none "acme" "1.2.0" =
      download_extension_with_version
        ⟨fun _ => true, fun p => if p = ["acme", "acme-1.2.0.tgz"] then some "B" else some "OTHER"⟩
        false none "acme" "1.2.0" ∧
    (∀ bytes,
      FS.read ⟨fun _ => false, fun p => if p = ["acme", "acme-1.2.0.tgz"] then some "B" else none⟩
          ["acme", "acme-1.2.0.tgz"] = some bytes →
      download_extension_with_version
          ⟨fun _ => false, fun p => if p = ["acme", "acme-1.2.0.tgz"] then some "B" else none⟩
          false none "acme" "1.2.0" = .ok "application/gzip" bytes) ∧
    (FS.read ⟨fun _ => false, fun p => if p = ["acme", "acme-1.2.0.tgz"] then some "B" else none⟩
        ["acme", "acme-1.2.0.tgz"] = none →
      download_extension_with_version
          ⟨fun _ => false, fun p => if p = ["acme", "acme-1.2.0.tgz"] then some "B" else none⟩
          false none "acme" "1.2.0" =
        if false then proxy_download_version_request none
        else .notFound ("Extension version archive not found: " ++ "1.2.0")) :=
  c3_explicit_version_exact_file
    ⟨fun _ => false, fun p => if p = ["acme", "acme-1.2.0.tgz"] then some "B" else none⟩
    ⟨fun _ => true, fun p => if p = ["acme", "acme-1.2.0.tgz"] then some "B" else some "OTHER"⟩
    false none "acme" "1.2.0" (by decide)

/-- Claim C9: an absent or empty `ids` parameter short-circuits the
update-check to an empty list, regardless of every other filter parameter and
of the catalog on disk. -/
theorem c9_empty_ids_short_circuit (fs : FS)
    (parseWrapped : String → Option (List Extension)) (proxy_mode : Bool)
    (query : List (String × String))
    (h : lookupKV query "ids" = none ∨ lookupKV query "ids" = some "") :
    check_extension_updates fs parseWrapped proxy_mode query = .okJson [] := by
  unfold check_extension_updates
  rcases h with h | h <;> simp [h]

/-- Claim C9 witness: empty-`ids` query with other filters present, over a
filesystem whose catalog is readable and non-trivial. -/
theorem c9_empty_ids_short_circuit_witness :
    check_extension_updates ⟨fun _ => true, fun _ => some "CATALOG"⟩
      (fun content => if content = "CATALOG" then some [extAcme12] else none)
      true
      [("min_schema_version", "1"), ("max_wasm_api_version", "9.9.9"), ("ids", "")]
      = .okJson [] :=
  c9_empty_ids_short_circuit _ _ _ _ (Or.inr (by decide))

/-! ### Claim C2: `Version::compare`

Spec-side definitions.  `specParseTriple` follows the claim's words
literally: a version string parses as a `major.minor.patch` numeric triple,
i.e. exactly three dot-separated components. -/

def specParseTriple (s : String) : Option (Nat × Nat × Nat) :=
  match splitStr '.' s with
  | [a, b, c] =>
    match parseU32 a, parseU32 b, parseU32 c with
    | some major, some minor, some patch => some (major, minor, patch)
    | _, _, _ => none
  | _ => none

/-- The ordering described by claim C2: triple comparison when both sides
parse as exact triples, else lexicographic string comparison. -/
def specCompare (a b : Version) : Ordering :=
  match specParseTriple a.version, specParseTriple b.version with
  | some (am, ai, ap), some (bm, bi, bp) =>
    (cmpNat am bm).then ((cmpNat ai bi).then (cmpNat ap bp))
  | _, _ => strCmp a.version b.version

/-- The amended parse: fewer than three components fail, the first three
components are parsed as `u32`, and components past the third are ignored. -/
def specParseAmended (s : String) : Option (Nat × Nat × Nat) :=
  match splitStr '.' s with
  | a :: b :: c :: _ =>
    match parseU32 a, parseU32 b, parseU32 c with
    | some major, some minor, some patch => some (major, minor, patch)
    | _, _, _ => none
  | _ => none

/-- The ordering described by the amended claim C2. -/
def specCompareAmended (a b : Version) : Ordering :=
  match specParseAmended a.version, specParseAmended b.version with
  | some (am, ai, ap), some (bm, bi, bp) =>
    (cmpNat am bm).then ((cmpNat ai bi).then (cmpNat ap bp))
  | _, _ => strCmp a.version b.version

/-- Claim C2 counterexample: on `"1.2.3.9"` vs `"1.2.3"` the code parses the
first three components of the four-component string and answers `Equal`,
while the claimed rule (either side failing to parse as a numeric *triple*
falls back to lexicographic comparison) answers `Greater`. -/
theorem c2_counterexample :
    Version.compare ⟨"1.2.3.9", "", none⟩ ⟨"1.2.3", "", none⟩ = .eq ∧
    specCompare ⟨"1.2.3.9", "", none⟩ ⟨"1.2.3", "", none⟩ = .gt ∧
    Version.compare ⟨"1.2.3.9", "", none⟩ ⟨"1.2.3", "", none⟩ ≠
      specCompare ⟨"1.2.3.9", "", none⟩ ⟨"1.2.3", "", none⟩ :=
  ⟨by decide, by decide, by decide⟩

theorem parse_semver_eq_amended (v : Version) :
    v.parse_semver = specParseAmended v.version := by
  unfold Version.parse_semver specParseAmended
  cases hp : splitStr '.' v.version with
  | nil => simp [hp]
  | cons a t =>
    cases t with
    | nil => simp [hp]
    | cons b t2 =>
      cases t2 with
      | nil => simp [hp]
      | cons c t3 =>
        have hlen : ¬ ((a :: b :: c :: t3).length < 3) := by
          simp only [List.length_cons]; omega
        simp [hp, hlen, List.getD_cons_zero, List.getD_cons_succ]

/-- Claim C2 (amended): `compare` splits both version strings on `'.'`; a
string with fewer than three components fails to parse, otherwise its first
three components are parsed as `u32` (components past the third are ignored);
when both sides parse the order is by major, then minor, then patch, and
otherwise it is plain lexicographic comparison of the two strings. -/
theorem c2_compare_amended (a b : Version) :
    Version.compare a b = specCompareAmended a b := by
  unfold Version.compare specCompareAmended
  rw [parse_semver_eq_amended, parse_semver_eq_amended]
  cases specParseAmended a.version with
  | none => cases specParseAmended b.version <;> rfl
  | some p =>
    obtain ⟨am, ai, ap⟩ := p
    cases specParseAmended b.version with
    | none => rfl
    | some q =>
      obtain ⟨bm, bi, bp⟩ := q
      cases h1 : cmpNat am bm <;> cases h2 : cmpNat ai bi <;>
        simp [h1, h2, Ordering.then]

/-! ### Claim C10: wasm-api-version bounds in the shared filter -/

/-- Follows the claim's words: an extension without a `wasm_api_version`
always passes the wasm bounds; one with a version passes iff the version
string lies between the present bounds in lexicographic order. -/
def wasmPassSpec (minW maxW : Option String) (ext : Extension) : Bool :=
  match ext.wasm_api_version with
  | none => true
  | some v =>
    (match minW with | some m => strLe m v | none => true) &&
    (match maxW with | some M => strLe v M | none => true)

theorem wasmCode_eq_spec (minW maxW : Option String) (ext : Extension) :
    wasmCodePred minW maxW ext = wasmPassSpec minW maxW ext := by
  unfold wasmCodePred wasmPassSpec
  cases hw : ext.wasm_api_version with
  | none => simp [hw]
  | some v => cases minW <;> cases maxW <;> simp [hw, strLe_eq_not_strLt]

theorem wasmPassSpec_none_none (ext : Extension) :
    wasmPassSpec none none ext = true := by
  unfold wasmPassSpec
  cases ext.wasm_api_version <;> simp

/-- Claim C10: in the shared filter, an extension with absent
`wasm_api_version` is never removed by the wasm bounds, and one with a present
version is kept by them iff its string lies between the present bounds under
lexicographic comparison — membership in the filtered output equals
membership in the bounds-free output conjoined with the claimed predicate. -/
theorem c10_wasm_bounds (extensions : List Extension) (filter : Option String)
    (minS maxS : Option Int) (minW maxW : Option String)
    (provides : Option String) (extension_ids : Option (List String))
    (ext : Extension) :
    ext ∈ filter_extensions_with_params extensions filter minS maxS minW maxW
        provides extension_ids ↔
      (ext ∈ filter_extensions_with_params extensions filter minS maxS none none
          provides extension_ids ∧ wasmPassSpec minW maxW ext = true) := by
  have hstage : filter_extensions_with_params extensions filter minS maxS minW maxW
      provides extension_ids =
    if minW.isSome || maxW.isSome then
      (filter_extensions_with_params extensions filter minS maxS none none
        provides extension_ids).filter (wasmCodePred minW maxW)
    else
      filter_extensions_with_params extensions filter minS maxS none none
        provides extension_ids := rfl
  rw [hstage]
  cases minW with
  | none =>
    cases maxW with
    | none => simp [wasmPassSpec_none_none]
    | some M => simp [List.mem_filter, wasmCode_eq_spec]
  | some m => simp [List.mem_filter, wasmCode_eq_spec]

/-! ### Claim C6: latest-only download decision -/

/-- Characterization of `dl_download_extension` in latest-only mode, given
that the extension's cache directory exists or can be created. -/
theorem dl_latest_eq (fs : FS) (mkdirOk : Bool)
    (versionsResult : Except Unit (List Extension))
    (encode : List Extension → String)
    (download : String → String → Option String) (writeOk : List String → Bool)
    (extension : Extension) (tracker : ExtensionVersionTracker)
    (hdir : fs.pathExists [extension.id] = true ∨ mkdirOk = true) :
    dl_download_extension fs mkdirOk versionsResult encode download writeOk
        false extension tracker =
      .ok (if fs.pathExists [extension.id, extension.id ++ ".tgz"]
            && !tracker.has_newer_version extension then
          ⟨[], [], tracker⟩
        else
          match download extension.id extension.version with
          | some bytes =>
            if writeOk [extension.id, extension.id ++ ".tgz"] then
              ⟨[(extension.id, extension.version)],
                [([extension.id, extension.id ++ ".tgz"], bytes)],
                tracker.update_extension extension⟩
            else ⟨[(extension.id, extension.version)], [], tracker⟩
          | none => ⟨[(extension.id, extension.version)], [], tracker⟩) := by
  have hmk : (!fs.pathExists [extension.id] && !mkdirOk) = false := by
    rcases hdir with h | h <;> simp [h]
  unfold dl_download_extension
  simp only [hmk, Bool.false_eq_true, if_false]
  cases hskip : (fs.pathExists [extension.id, extension.id ++ ".tgz"]
      && !tracker.has_newer_version extension) with
  | true => simp
  | false =>
    simp only [Bool.false_eq_true, if_false]
    cases download extension.id extension.version with
    | none => rfl
    | some bytes =>
      cases writeOk [extension.id, extension.id ++ ".tgz"] <;> simp

/-- Claim C6: in latest-only mode the downloader attempts the download iff
the cached `<id>/<id>.tgz` is missing or `has_newer_version` holds (a write
happens only in that case); when the file exists and the tracked version
matches, the extension is skipped entirely.  `has_newer_version` is true for
untracked ids and false exactly when the tracked string equals the
extension's version. -/
theorem c6_latest_download_decision (fs : FS) (mkdirOk : Bool)
    (versionsResult : Except Unit (List Extension))
    (encode : List Extension → String)
    (download : String → String → Option String) (writeOk : List String → Bool)
    (extension : Extension) (tracker : ExtensionVersionTracker)
    (hdir : fs.pathExists [extension.id] = true ∨ mkdirOk = true) :
    (∀ r, dl_download_extension fs mkdirOk versionsResult encode download writeOk
        false extension tracker = .ok r →
      ((r.attempts ≠ [] ↔
        (fs.pathExists [extension.id, extension.id ++ ".tgz"] = false ∨
          tracker.has_newer_version extension = true)) ∧
       (r.writes ≠ [] →
        (fs.pathExists [extension.id, extension.id ++ ".tgz"] = false ∨
          tracker.has_newer_version extension = true)))) ∧
    (fs.pathExists [extension.id, extension.id ++ ".tgz"] = true →
      tracker.has_newer_version extension = false →
      dl_download_extension fs mkdirOk versionsResult encode download writeOk
        false extension tracker = .ok ⟨[], [], tracker⟩) ∧
    (tracker.has_newer_version extension = false ↔
      lookupKV tracker.extensions extension.id = some extension.version) ∧
    (lookupKV tracker.extensions extension.id = none →
      tracker.has_newer_version extension = true) := by
  have heq := dl_latest_eq fs mkdirOk versionsResult encode download writeOk
    extension tracker hdir
  refine ⟨?_, ?_, ?_, ?_⟩
  · intro r hr
    rw [heq] at hr
    obtain rfl : _ = r := Except.ok.inj hr
    cases hpe : fs.pathExists [extension.id, extension.id ++ ".tgz"] <;>
      cases hhn : tracker.has_newer_version extension <;>
        simp only [hpe, hhn, Bool.not_true, Bool.not_false, Bool.and_true,
          Bool.and_false, Bool.true_and, Bool.false_and, Bool.false_eq_true,
          if_false, if_true] <;>
      (cases hdl : download extension.id extension.version <;>
        [skip; cases hwk : writeOk [extension.id, extension.id ++ ".tgz"]] <;>
        simp [hdl])
  · intro hpe hhn
    rw [heq, hpe, hhn]
    rfl
  · unfold ExtensionVersionTracker.has_newer_version
    cases hlk : lookupKV tracker.extensions extension.id with
    | none => simp
    | some tracked =>
      by_cases he : tracked = extension.version
      · subst he; simp
      · simp [he, Ne.symm he]
  · intro hlk
    unfold ExtensionVersionTracker.has_newer_version
    rw [hlk]

/-- Claim C6 witness: a concrete run over an empty cache (download attempted,
written, tracked), exercising each conjunct. -/
theorem c6_latest_download_decision_witness :
    (∀ r, dl_download_extension ⟨fun _ => false, fun _ => none⟩ true (.ok [])
        (fun _ => "J") (fun _ _ => some "BYTES") (fun _ => true)
        false extAcme12 ⟨[]⟩ = .ok r →
      ((r.attempts ≠ [] ↔
        (FS.pathExists ⟨fun _ => false, fun _ => none⟩ ["acme", "acme" ++ ".tgz"] = false ∨
          ExtensionVersionTracker.has_newer_version ⟨[]⟩ extAcme12 = true)) ∧
       (r.writes ≠ [] →
        (FS.pathExists ⟨fun _ => false, fun _ => none⟩ ["acme", "acme" ++ ".tgz"] = false ∨
          ExtensionVersionTracker.has_newer_version ⟨[]⟩ extAcme12 = true)))) ∧
    (FS.pathExists ⟨fun _ => false, fun _ => none⟩ ["acme", "acme" ++ ".tgz"] = true →
      ExtensionVersionTracker.has_newer_version ⟨[]⟩ extAcme12 = false →
      dl_download_extension ⟨fun _ => false, fun _ => none⟩ true (.ok [])
        (fun _ => "J") (fun _ _ => some "BYTES") (fun _ => true)
        false extAcme12 ⟨[]⟩ = .ok ⟨[], [], ⟨[]⟩⟩) ∧
    (ExtensionVersionTracker.has_newer_version ⟨[]⟩ extAcme12 = false ↔
      lookupKV (ExtensionVersionTracker.mk []).extensions extAcme12.id =
        some extAcme12.version) ∧
    (lookupKV (ExtensionVersionTracker.mk []).extensions extAcme12.id = none →
      ExtensionVersionTracker.has_newer_version ⟨[]⟩ extAcme12 = true) := by
  have h := c6_latest_download_decision ⟨fun _ => false, fun _ => none⟩ true
    (.ok []) (fun _ => "J") (fun _ _ => some "BYTES") (fun _ => true)
    extAcme12 ⟨[]⟩ (Or.inr rfl)
  simpa [extAcme12, mkExt] using h

/-! ### Claims C4 and C1: the tiered download handler -/

theorem bestAvailableTier_eq_none (fs : FS)
    (parseWrapped : String → Option (List Extension)) (id : String)
    (h2 : ∀ content versions, fs.read [id, "versions.json"] = some content →
      parseWrapped content = some versions →
      ∀ e ∈ versions, fs.pathExists [id, id ++ "-" ++ e.version ++ ".tgz"] = false) :
    bestAvailableTier fs parseWrapped id = none := by
  unfold bestAvailableTier
  cases hd : fs.pathExists [id] with
  | false => rfl
  | true =>
    cases hv : fs.pathExists [id, "versions.json"] with
    | false => simp
    | true =>
      simp only [if_true]
      cases hr : fs.read [id, "versions.json"] with
      | none => rfl
      | some content =>
        cases hP : parseWrapped content with
        | none => simp only [hP]
        | some versions =>
          have hcand : bestCandidates fs id versions = [] := by
            unfold bestCandidates
            rw [List.filterMap_eq_nil_iff]
            intro e he
            simp [h2 content versions hr hP e he]
          simp only [hP, hcand]
          rfl

/-- Claim C4: for an id with no cached artifact in any layout (no latest
`<id>/<id>.tgz`, no on-disk versioned archive listed in `versions.json`, no
legacy flat `<id>.tar.gz`), the download handler returns 404 when
`proxy_mode` is off, and with `proxy_mode` on it forwards upstream and
returns the upstream status and body verbatim. -/
theorem c4_miss_404_or_proxy_verbatim (fs : FS)
    (parseWrapped : String → Option (List Extension))
    (upstream : Option UpstreamResp) (id : String)
    (h1 : fs.read [id, id ++ ".tgz"] = none)
    (h2 : ∀ content versions, fs.read [id, "versions.json"] = some content →
      parseWrapped content = some versions →
      ∀ e ∈ versions, fs.pathExists [id, id ++ "-" ++ e.version ++ ".tgz"] = false)
    (h3 : fs.read [id ++ ".tar.gz"] = none) :
    download_extension fs parseWrapped false upstream id =
      .notFound ("Extension archive not found for id: " ++ id) ∧
    (∀ status body, upstream = some ⟨status, some body⟩ →
      download_extension fs parseWrapped true upstream id = .raw status body) := by
  have htier := bestAvailableTier_eq_none fs parseWrapped id h2
  constructor
  · unfold download_extension
    rw [h1, htier, h3]
    rfl
  · intro status body hup
    unfold download_extension
    rw [h1, htier, h3, hup]
    rfl

/-- Claim C4 witness: an entirely empty cache; with `proxy_mode` the stubbed
upstream 404 with body `"nope"` is passed through verbatim. -/
theorem c4_miss_404_or_proxy_verbatim_witness :
    download_extension ⟨fun _ => false, fun _ => none⟩ (fun _ => none) false
        (some ⟨404, some "nope"⟩) "ghost" =
      .notFound ("Extension archive not found for id: " ++ "ghost") ∧
    (∀ status body, (some ⟨404, some "nope"⟩ : Option UpstreamResp) =
        some ⟨status, some body⟩ →
      download_extension ⟨fun _ => false, fun _ => none⟩ (fun _ => none) true
        (some ⟨404, some "nope"⟩) "ghost" = .raw status body) :=
  c4_miss_404_or_proxy_verbatim ⟨fun _ => false, fun _ => none⟩ (fun _ => none)
    (some ⟨404, some "nope"⟩) "ghost" rfl
    (fun content versions hc => by cases hc) rfl

/-- Claim C1: when the latest file misses and `versions.json` is readable and
parses, the handler serves the file of the best candidate — the maximum,
under the semver-crate ordering, of the listed versions whose archive exists
on disk and whose version string parses (unparsable ones are skipped). -/
theorem c1_best_available_selects_max (fs : FS)
    (parseWrapped : String → Option (List Extension)) (proxy_mode : Bool)
    (upstream : Option UpstreamResp) (id content : String)
    (versions : List Extension) (best : SemVer × String × List String)
    (bytes : String)
    (h1 : fs.read [id, id ++ ".tgz"] = none)
    (h2 : fs.pathExists [id] = true)
    (h3 : fs.pathExists [id, "versions.json"] = true)
    (h4 : fs.read [id, "versions.json"] = some content)
    (h5 : parseWrapped content = some versions)
    (h6 : maxByCmp candCmp (bestCandidates fs id versions) = some best)
    (h7 : fs.read best.2.2 = some bytes) :
    download_extension fs parseWrapped proxy_mode upstream id =
      .ok "application/gzip" bytes ∧
    best ∈ bestCandidates fs id versions ∧
    (∀ c ∈ bestCandidates fs id versions, semverCmp c.1 best.1 ≠ .gt) := by
  obtain ⟨hmem, hmax⟩ := maxByCmp_spec h6
  refine ⟨?_, hmem, fun c hc => hmax c hc⟩
  unfold download_extension bestAvailableTier
  simp only [h1, h2, h3, h4, h5, h6, h7, if_true]

/-- Claim C1 witness: with `acme-1.2.0.tgz` and `acme-1.10.0.tgz` both on
disk and listed, the handler serves the `1.10.0` archive — numeric, not
lexicographic, comparison. -/
theorem c1_best_available_selects_max_witness :
    download_extension acmeFs acmeParse false none "acme" =
      .ok "application/gzip" "ARCHIVE_1_10_0" ∧
    (⟨⟨1, 10, 0, [], []⟩, "1.10.0", ["acme", "acme-1.10.0.tgz"]⟩ :
        SemVer × String × List String) ∈
      bestCandidates acmeFs "acme" [extAcme12, extAcme110] ∧
    (∀ c ∈ bestCandidates acmeFs "acme" [extAcme12, extAcme110],
      semverCmp c.1 (⟨1, 10, 0, [], []⟩ : SemVer) ≠ .gt) :=
  c1_best_available_selects_max acmeFs acmeParse false none "acme"
    "VERSIONS_JSON" [extAcme12, extAcme110]
    ⟨⟨1, 10, 0, [], []⟩, "1.10.0", ["acme", "acme-1.10.0.tgz"]⟩
    "ARCHIVE_1_10_0" (by decide) (by decide) (by decide) (by decide)
    (by decide) (by decide) (by decide)

/-! ### Claims C7 and C8: the catalog builder -/

/-- The id-keyed map invariant: keys are unique and each entry's key is its
extension's id. -/
def WellKeyed (m : List (String × Extension)) : Prop :=
  (m.map (·.1)).Nodup ∧ ∀ p ∈ m, p.2.id = p.1

theorem mem_insertKV {m : List (String × β)} {k : String} {v : β} {p : String × β}
    (h : p ∈ insertKV m k v) : p = (k, v) ∨ p ∈ m := by
  induction m with
  | nil => simpa [insertKV] using h
  | cons q t ih =>
    obtain ⟨k0, v0⟩ := q
    by_cases h0 : k0 = k
    · subst h0
      rcases (by simpa [insertKV] using h : p = (k0, v) ∨ p ∈ t) with h1 | h1
      · exact .inl h1
      · exact .inr (by simp [h1])
    · rcases (by simpa [insertKV, h0] using h :
          p = (k0, v0) ∨ p ∈ insertKV t k v) with h1 | h1
      · exact .inr (by simp [h1])
      · rcases ih h1 with h2 | h2
        · exact .inl h2
        · exact .inr (by simp [h2])

theorem wellKeyed_insertKV {m : List (String × Extension)} (ext : Extension)
    (h : WellKeyed m) : WellKeyed (insertKV m ext.id ext) := by
  obtain ⟨hn, hk⟩ := h
  refine ⟨nodup_keys_insertKV _ _ hn, fun p hp => ?_⟩
  rcases mem_insertKV hp with rfl | hp
  · rfl
  · exact hk p hp

theorem wellKeyed_insertExts {m : List (String × Extension)}
    (exts : List Extension) (h : WellKeyed m) :
    WellKeyed (insertExts m exts) := by
  induction exts generalizing m with
  | nil => exact h
  | cons e t ih =>
    have : insertExts m (e :: t) = insertExts (insertKV m e.id e) t := rfl
    rw [this]
    exact ih (wellKeyed_insertKV e h)

theorem wellKeyed_mergeFetches
    {fetch : Option String → Except Unit (List Extension)} :
    ∀ (qs : List (Option String)) (m r : List (String × Extension)),
      WellKeyed m → mergeFetches fetch qs m = .ok r → WellKeyed r := by
  intro qs
  induction qs with
  | nil =>
    intro m r h hm
    obtain rfl : m = r := Except.ok.inj hm
    exact h
  | cons q t ih =>
    intro m r h hm
    unfold mergeFetches at hm
    cases hf : fetch q with
    | error e => rw [hf] at hm; cases hm
    | ok exts =>
      rw [hf] at hm
      exact ih _ _ (wellKeyed_insertExts exts h) hm

theorem wellKeyed_buildIndexMap
    {fetch : Option String → Except Unit (List Extension)}
    {provides : List String} {m : List (String × Extension)}
    (h : buildIndexMap fetch provides = .ok m) : WellKeyed m := by
  unfold buildIndexMap at h
  by_cases hp : provides.isEmpty
  · rw [if_pos hp] at h
    cases hf : fetch none with
    | error e => rw [hf] at h; cases h
    | ok initial_exts =>
      rw [hf] at h
      exact wellKeyed_mergeFetches _ _ _
        (wellKeyed_insertExts initial_exts ⟨by simp, by simp⟩) h
  · rw [if_neg hp] at h
    exact wellKeyed_mergeFetches _ _ _ ⟨by simp, by simp⟩ h

theorem wellKeyed_values_nodup {m : List (String × Extension)}
    (h : WellKeyed m) : ((m.map (·.2)).map (·.id)).Nodup := by
  obtain ⟨hn, hk⟩ := h
  have hmap : (m.map (·.2)).map (·.id) = m.map (·.1) := by
    rw [List.map_map]
    exact List.map_congr_left fun p hp => hk p hp
  rw [hmap]
  exact hn

/-- Claim C7: every catalog the builder returns and persists has at most one
entry per extension id and is sorted by `download_count` descending; the
single write is the encoded sorted catalog. -/
theorem c7_catalog_dedup_sorted
    (fetch : Option String → Except Unit (List Extension))
    (encode : List Extension → String) (provides : List String)
    (ws : List (List String × String)) (exts : List Extension)
    (h : download_extension_index fetch encode provides = (ws, .ok exts)) :
    (exts.map (·.id)).Nodup ∧
    exts.Pairwise (fun a b => b.download_count ≤ a.download_count) ∧
    ws = [(["extensions.json"], encode exts)] := by
  unfold download_extension_index at h
  cases hb : buildIndexMap fetch provides with
  | error e =>
    rw [hb] at h
    exact absurd (Prod.mk.inj h).2 (by simp)
  | ok m =>
    rw [hb] at h
    simp only [Prod.mk.injEq] at h
    obtain ⟨hws, hexts⟩ := h
    obtain rfl : exts = (m.map (·.2)).mergeSort indexLe := (Except.ok.inj hexts).symm
    have hwk := wellKeyed_buildIndexMap hb
    refine ⟨?_, ?_, hws.symm⟩
    · have hperm : ((m.map (·.2)).mergeSort indexLe).Perm (m.map (·.2)) :=
        List.mergeSort_perm _ _
      exact (hperm.symm.map (·.id)).nodup (wellKeyed_values_nodup hwk)
    · have hsorted := @List.sorted_mergeSort Extension indexLe
        (fun a b c hab hbc => by
          simp only [indexLe, decide_eq_true_eq] at hab hbc ⊢
          omega)
        (fun a b => by
          simp only [indexLe, Bool.or_eq_true, decide_eq_true_eq]
          omega)
        (m.map (·.2))
      exact hsorted.imp fun {a b} hab => by
        simpa [indexLe, decide_eq_true_eq] using hab

def extGramB : Extension := mkExt "b" "1.0.0" 1 none 1 ["grammars"]

def extGramC : Extension := mkExt "c" "1.0.0" 1 none 7 ["grammars"]

/-- Claim C7 witness: one filtered fetch returning two extensions; the
persisted catalog is deduplicated and sorted by download count descending. -/
theorem c7_catalog_dedup_sorted_witness :
    (([extGramC, extGramB].map (·.id)).Nodup) ∧
    [extGramC, extGramB].Pairwise
      (fun a b => b.download_count ≤ a.download_count) ∧
    [(["extensions.json"], "J")] =
      [(["extensions.json"],
        (fun _ : List Extension => "J") [extGramC, extGramB])] := by
  have hsort : [extGramC, extGramB].mergeSort indexLe = [extGramC, extGramB] :=
    List.mergeSort_of_sorted (by decide)
  have hb : buildIndexMap (fun _ => Except.ok [extGramC, extGramB]) ["grammars"]
      = .ok [("c", extGramC), ("b", extGramB)] := rfl
  refine c7_catalog_dedup_sorted (fun _ => Except.ok [extGramC, extGramB])
    (fun _ => "J") ["grammars"] _ _ ?_
  unfold download_extension_index
  simp only [hb, List.map_cons, List.map_nil, hsort]

/-- Failure of any fetch in a query sequence aborts the merge. -/
theorem mergeFetches_error
    {fetch : Option String → Except Unit (List Extension)} :
    ∀ (qs : List (Option String)) (m : List (String × Extension)),
      (∃ q ∈ qs, fetch q = .error ()) →
      mergeFetches fetch qs m = .error () := by
  intro qs
  induction qs with
  | nil =>
    rintro m ⟨q, hq, _⟩
    cases hq
  | cons q0 t ih =>
    rintro m ⟨q, hq, hfail⟩
    unfold mergeFetches
    cases hf : fetch q0 with
    | error e =>
      cases e
      rfl
    | ok exts =>
      rcases List.mem_cons.mp hq with rfl | hq2
      · rw [hf] at hfail
        cases hfail
      · exact ih _ ⟨q, hq2, hfail⟩

/-- Claim C8: if any upstream catalog fetch of the refresh fails — the
unfiltered fetch, a fetch for a discovered capability, or a fetch for a given
filter — `download_extension_index` returns an error and performs no write:
no `extensions.json` is produced and a previously persisted catalog is left
untouched. -/
theorem c8_fetch_failure_aborts
    (fetch : Option String → Except Unit (List Extension))
    (encode : List Extension → String) (provides : List String)
    (h : (provides = [] ∧ (fetch none = .error () ∨
           (∃ initial_exts, fetch none = .ok initial_exts ∧
             ∃ cap ∈ (initial_exts.flatMap (·.provides)).dedup,
               fetch (some cap) = .error ()))) ∨
         (∃ p ∈ provides, fetch (some p) = .error ())) :
    download_extension_index fetch encode provides = ([], .error ()) := by
  have hmap : buildIndexMap fetch provides = .error () := by
    unfold buildIndexMap
    rcases h with ⟨rfl, hfail⟩ | ⟨p, hp, hfail⟩
    · rcases hfail with hfail | ⟨initial_exts, hinit, cap, hcap, hfail⟩
      · simp only [List.isEmpty_nil, if_true]
        rw [hfail]
      · simp only [List.isEmpty_nil, if_true]
        rw [hinit]
        exact mergeFetches_error _ _ ⟨some cap, List.mem_map_of_mem some hcap, hfail⟩
    · have hne : ¬ provides.isEmpty := by
        cases provides with
        | nil => cases hp
        | cons a t => simp
      rw [if_neg hne]
      exact mergeFetches_error _ _ ⟨some p, List.mem_map_of_mem some hp, hfail⟩
  unfold download_extension_index
  rw [hmap]

/-- Claim C8 witness: every fetch failing, no filters given. -/
theorem c8_fetch_failure_aborts_witness :
    download_extension_index (fun _ => .error ()) (fun _ => "JSON") [] =
      ([], .error ()) :=
  c8_fetch_failure_aborts (fun _ => .error ()) (fun _ => "JSON") []
    (Or.inl ⟨rfl, Or.inl rfl⟩)

end Zedex
